import Mathlib

set_option maxRecDepth 100000

/-!
Verification of the text-processing core of the Voice-to-Summary AI Notepad
(FastAPI service).  We shallowly embed the pure processing routines of
`app/services/llm_service.py`, `app/services/whisper_service.py` and
`app/utils/audio_utils.py` over `List Char` texts and prove the spec's
claims about them.  Python `str` values are modelled as `List Char`;
Python exceptions raised by an injected backend are modelled with `Except`.
-/

namespace VoiceNotes

/-- Python `str.split()` with no argument splits on runs of whitespace and
drops empty pieces.  `pySplitAux s acc` processes `s` with `acc` holding the
current word's characters in reverse.  (We model whitespace with Lean's
`Char.isWhitespace`, which covers the ASCII whitespace characters that occur
in the texts at issue.) -/
def pySplitAux : List Char → List Char → List (List Char)
  | [], acc => if acc.isEmpty then [] else [acc.reverse]
  | c :: cs, acc =>
    if c.isWhitespace then
      if acc.isEmpty then pySplitAux cs []
      else acc.reverse :: pySplitAux cs []
    else pySplitAux cs (c :: acc)

/-- Python `text.split()`: the whitespace-delimited tokens of `text`. -/
def pySplit (s : List Char) : List (List Char) :=
  pySplitAux s []

/-- Python `" ".join(words)`. -/
def joinSpace : List (List Char) → List Char
  | [] => []
  | [w] => w
  | w :: x :: xs => w ++ ' ' :: joinSpace (x :: xs)

/-- The `for word in words` loop of `_split_text_into_chunks`
(`app/services/llm_service.py`, lines 192-204): `chunks` accumulates the
finished chunks, `currentChunk` the words of the open chunk and
`currentLength` the Python variable `current_length`. -/
def splitChunksAux (maxLength : Nat) :
    List (List Char) → List (List Char) → List (List Char) → Nat → List (List Char)
  | [], chunks, currentChunk, _ =>
    if currentChunk.isEmpty then chunks else chunks ++ [joinSpace currentChunk]
  | w :: ws, chunks, currentChunk, currentLength =>
    if currentLength + w.length + 1 ≤ maxLength then
      splitChunksAux maxLength ws chunks (currentChunk ++ [w]) (currentLength + w.length + 1)
    else
      splitChunksAux maxLength ws
        (if currentChunk.isEmpty then chunks else chunks ++ [joinSpace currentChunk])
        [w] w.length

/-- `LLMService._split_text_into_chunks(text, max_length)`
(`app/services/llm_service.py`, lines 185-205). -/
def split_text_into_chunks (text : List Char) (maxLength : Nat) : List (List Char) :=
  splitChunksAux maxLength (pySplit text) [] [] 0

/-- A word as produced by `pySplit`: non-empty and free of whitespace. -/
def goodWord (w : List Char) : Prop :=
  w ≠ [] ∧ ∀ c ∈ w, c.isWhitespace = false

/-- A sentence-terminating character of the regex `[.!?]+` used by
`_apply_style_formatting`. -/
def isSentenceEnd (c : Char) : Bool :=
  c = '.' || c = '!' || c = '?'

/-- Python `re.split(r'[.!?]+', s)`: fragments between maximal runs of
sentence-terminating punctuation (empty fragments included).  `acc` holds the
current fragment reversed; `inSep` records whether the previous character
belonged to a punctuation run. -/
def reSplitAux : List Char → List Char → Bool → List (List Char)
  | [], acc, _ => [acc.reverse]
  | c :: cs, acc, inSep =>
    if isSentenceEnd c then
      if inSep then reSplitAux cs acc true
      else acc.reverse :: reSplitAux cs [] true
    else reSplitAux cs (c :: acc) false

/-- `re.split(r'[.!?]+', s)` from the start of the string. -/
def reSplitSentences (s : List Char) : List (List Char) :=
  reSplitAux s [] false

/-- Python `str.strip()`: drop leading and trailing whitespace. -/
def pyStrip (s : List Char) : List Char :=
  ((s.dropWhile Char.isWhitespace).reverse.dropWhile Char.isWhitespace).reverse

/-- The `for sentence in sentences` loop of `_apply_style_formatting`
(`app/services/llm_service.py`, lines 212-216): keep trimmed fragments that
are truthy and longer than 10 characters, each rendered with a bullet. -/
def bulletLines : List (List Char) → List (List Char)
  | [] => []
  | s :: rest =>
    let t := pyStrip s
    if t ≠ [] ∧ 10 < t.length then ('•' :: ' ' :: t) :: bulletLines rest
    else bulletLines rest

/-- Python `"\n".join(lines)`. -/
def joinNewline : List (List Char) → List Char
  | [] => []
  | [w] => w
  | w :: x :: xs => w ++ '\n' :: joinNewline (x :: xs)

/-- `LLMService._apply_style_formatting(summary, style)`
(`app/services/llm_service.py`, lines 207-229). -/
def apply_style_formatting (summary : List Char) (style : String) : List Char :=
  if style = "bullet_points" then
    joinNewline (bulletLines (reSplitSentences summary))
  else if style = "executive" then
    "EXECUTIVE SUMMARY:\n\n".data ++ summary
  else if style = "technical" then
    "TECHNICAL SUMMARY:\n\n".data ++ summary
  else
    summary

/-- The dictionary returned by `_summarize_with_huggingface`, restricted to
its data fields (`model_used` and `provider` are configuration constants). -/
structure SummaryOutput where
  summary : List Char
  wordCount : Nat
deriving DecidableEq

/-- The single wrapped exception raised by `_summarize_with_huggingface`'s
`except` clause: either an injected backend failure (its cause kept), or the
`IndexError` of `summaries[0]` when no chunk existed. -/
inductive SummarizationError (E : Type) where
  | backendFailure (cause : E)
  | noSummaries
deriving DecidableEq

/-- The `for chunk in chunks` loop of `_summarize_with_huggingface`
(`app/services/llm_service.py`, lines 121-131): call the backend on each
chunk in order, stopping at the first failure. -/
def mapBackendChunks {E : Type} (backend : List Char → Except E (List Char)) :
    List (List Char) → Except E (List (List Char))
  | [] => .ok []
  | c :: cs =>
    match backend c with
    | .error e => .error e
    | .ok s =>
      match mapBackendChunks backend cs with
      | .error e => .error e
      | .ok rest => .ok (s :: rest)

/-- `LLMService._summarize_with_huggingface(text, max_length, style)`
(`app/services/llm_service.py`, lines 111-166), with the Hugging Face
pipeline abstracted as an injected fallible `backend`.  Mirrors: chunking at
`max_chunk_length = 1024`, per-chunk summarization, space-joined
recombination with one re-invocation when the joined word count exceeds
`max_length`, style formatting, and the word count of the formatted summary.
Any exception is caught and surfaced as one wrapped error. -/
def summarize_with_huggingface {E : Type} (backend : List Char → Except E (List Char))
    (maxLength : Nat) (style : String) (text : List Char) :
    Except (SummarizationError E) SummaryOutput :=
  match mapBackendChunks backend (split_text_into_chunks text 1024) with
  | .error e => .error (.backendFailure e)
  | .ok summaries =>
    match (if 1 < summaries.length then
             (if maxLength < (pySplit (joinSpace summaries)).length then
                match backend (joinSpace summaries) with
                | .error e => Except.error (SummarizationError.backendFailure e)
                | .ok s => Except.ok s
              else Except.ok (joinSpace summaries))
           else
             match summaries with
             | [] => Except.error SummarizationError.noSummaries
             | s :: _ => Except.ok s) with
    | .error e => .error e
    | .ok finalSummary =>
      .ok ⟨apply_style_formatting finalSummary style,
        (pySplit (apply_style_formatting finalSummary style)).length⟩

/-- The keys of the `SUPPORTED_FORMATS` mapping
(`app/utils/audio_utils.py`, lines 15-25). -/
def SUPPORTED_CONTENT_TYPES : List String :=
  ["audio/mpeg", "audio/wav", "audio/x-wav", "audio/mp4", "audio/x-m4a",
   "audio/flac", "audio/x-flac", "audio/ogg", "audio/webm"]

/-- `SUPPORTED_EXTENSIONS` (`app/utils/audio_utils.py`, line 28). -/
def SUPPORTED_EXTENSIONS : List (List Char) :=
  [".mp3".data, ".wav".data, ".m4a".data, ".flac".data, ".ogg".data, ".webm".data]

/-- Python `str.rfind(ch)`: `i` is the index of the head of the remaining
list, `best` the highest match index so far (`-1` when none). -/
def rfindAux (ch : Char) : List Char → Nat → Int → Int
  | [], _, best => best
  | c :: cs, i, best => rfindAux ch cs (i + 1) (if c = ch then (i : Int) else best)

/-- Python `s.rfind(ch)`: highest index of `ch` in `s`, or `-1`. -/
def pyRfind (s : List Char) (ch : Char) : Int :=
  rfindAux ch s 0 (-1)

/-- The extension component of `os.path.splitext(p)` (CPython `posixpath`):
the suffix starting at the last `'.'`, provided that dot comes after the
last `'/'` and at least one earlier character of the basename is not a dot
(all-dot basenames such as `".bashrc"`'s leading dot carry no extension). -/
def splitextExtension (p : List Char) : List Char :=
  let sepIndex := pyRfind p '/'
  let dotIndex := pyRfind p '.'
  if sepIndex < dotIndex then
    let base := (p.drop (sepIndex + 1).toNat).take (dotIndex - (sepIndex + 1)).toNat
    if base.any (fun c => c ≠ '.') then p.drop dotIndex.toNat else []
  else []

/-- An uploaded file as observed by `validate_audio_file`: its filename, its
declared content type (absent when the client sent none) and its byte length
(what the `seek`/`tell` pair measures). -/
structure UploadFile where
  filename : List Char
  contentType : Option String
  byteLength : Nat

/-- `validate_audio_file(file)` (`app/utils/audio_utils.py`, lines 30-77).
Python's `str.lower()` is modelled by mapping `Char.toLower`, which agrees
with it on ASCII filenames. -/
def validate_audio_file (file : UploadFile) : Bool :=
  if file.filename = [] then false
  else if ¬ (splitextExtension (file.filename.map Char.toLower) ∈ SUPPORTED_EXTENSIONS) then
    false
  else if (match file.contentType with
           | some ct => !(SUPPORTED_CONTENT_TYPES.contains ct)
           | none => false) then
    false
  else if 50 * 1024 * 1024 < file.byteLength then false
  else if file.byteLength = 0 then false
  else true

/-- A transcription segment as consumed by `_transcribe_with_local`: its
`avg_logprob` and `end` fields, modelled as rationals. -/
structure Segment where
  avgLogprob : ℚ
  endTime : ℚ

/-- Python's builtin `min` on two rationals (kernel-reducible). -/
def pyMin (a b : ℚ) : ℚ := if a ≤ b then a else b

/-- Python's builtin `max` on two rationals (kernel-reducible). -/
def pyMax (a b : ℚ) : ℚ := if a ≤ b then b else a

/-- The confidence and duration computation of
`WhisperService._transcribe_with_local`
(`app/services/whisper_service.py`, lines 140-152). -/
def confidence_and_duration (segments : List Segment) : ℚ × ℚ :=
  let confidence :=
    if ¬segments.isEmpty then
      let confidences := segments.map (fun s => s.avgLogprob)
      let c := if ¬confidences.isEmpty then confidences.sum / (confidences.length : ℚ) else 0
      pyMax 0 (pyMin 1 ((c + 1) / 2))
    else (0.8 : ℚ)
  let duration :=
    if ¬segments.isEmpty then
      match segments.getLast? with
      | some s => s.endTime
      | none => 0
    else 0
  (confidence, duration)

example : pySplit "ab  cd e".data = [['a','b'], ['c','d'], ['e']] := by decide

example : split_text_into_chunks "ab cd e".data 5 = [['a','b'], "cd e".data] := by decide

example : split_text_into_chunks "abcdefgh x".data 5 = ["abcdefgh".data, ['x']] := by decide

example : reSplitSentences "a.. b!c".data = [['a'], [' ','b'], ['c']] := by decide

example : reSplitSentences "a.".data = [['a'], []] := by decide

example : splitextExtension "clip.mp3".data = ".mp3".data := by decide

example : splitextExtension "archive.tar.gz".data = ".gz".data := by decide

example : splitextExtension ".bashrc".data = [] := by decide

example : splitextExtension "dir.v2/file".data = [] := by decide

example : validate_audio_file ⟨"CLIP.MP3".data, none, 5⟩ = true := by decide

example : validate_audio_file ⟨"clip.mp3".data, some "text/plain", 5⟩ = false := by decide

example : confidence_and_duration [⟨-1, 5⟩, ⟨0, 125/10⟩] = (1/4, 125/10) := by
  norm_num [confidence_and_duration, pyMin, pyMax]

theorem pySplitAux_good :
    ∀ (s acc : List Char), (∀ c ∈ acc, c.isWhitespace = false) →
      ∀ w ∈ pySplitAux s acc, goodWord w := by
  intro s
  induction s with
  | nil =>
    intro acc hacc w hw
    by_cases h : acc = []
    · subst h; simp [pySplitAux] at hw
    · simp [pySplitAux, h] at hw
      subst hw
      refine ⟨by simpa using h, ?_⟩
      intro c hc
      exact hacc c (List.mem_reverse.mp hc)
  | cons c cs ih =>
    intro acc hacc w hw
    by_cases hws : c.isWhitespace = true
    · by_cases h : acc = []
      · subst h
        simp [pySplitAux, hws] at hw
        exact ih [] (by simp) w hw
      · simp [pySplitAux, hws, h] at hw
        rcases hw with hw | hw
        · subst hw
          refine ⟨by simpa using h, ?_⟩
          intro x hx
          exact hacc x (List.mem_reverse.mp hx)
        · exact ih [] (by simp) w hw
    · simp only [pySplitAux, hws, if_false] at hw
      refine ih (c :: acc) ?_ w hw
      intro x hx
      rcases List.mem_cons.mp hx with rfl | hx
      · simpa using hws
      · exact hacc x hx

theorem pySplit_good : ∀ (s : List Char), ∀ w ∈ pySplit s, goodWord w := by
  intro s
  exact pySplitAux_good s [] (by simp)

theorem pySplitAux_skip_word :
    ∀ (w s acc : List Char), (∀ c ∈ w, c.isWhitespace = false) →
      pySplitAux (w ++ s) acc = pySplitAux s (w.reverse ++ acc) := by
  intro w
  induction w with
  | nil => intro s acc _; simp
  | cons c cs ih =>
    intro s acc hgood
    have hc : c.isWhitespace = false := hgood c (by simp)
    simp only [List.cons_append, pySplitAux, hc, Bool.false_eq_true, if_false, List.append_eq]
    rw [ih s (c :: acc) (fun x hx => hgood x (by simp [hx]))]
    simp

theorem pySplitAux_space (s acc : List Char) (h : acc ≠ []) :
    pySplitAux (' ' :: s) acc = acc.reverse :: pySplitAux s [] := by
  simp [pySplitAux, h]

/-- Round trip: re-splitting a space-join of good words yields the words back. -/
theorem pySplit_joinSpace :
    ∀ (ws : List (List Char)), (∀ w ∈ ws, goodWord w) →
      pySplit (joinSpace ws) = ws := by
  intro ws
  induction ws with
  | nil => intro _; rfl
  | cons w tail ih =>
    intro hgood
    have hw : goodWord w := hgood w (by simp)
    cases tail with
    | nil =>
      show pySplitAux w [] = [w]
      have h2 := pySplitAux_skip_word w [] [] hw.2
      simp only [List.append_nil] at h2
      rw [h2]
      simp [pySplitAux, hw.1]
    | cons x xs =>
      show pySplitAux (w ++ ' ' :: joinSpace (x :: xs)) [] = w :: x :: xs
      rw [pySplitAux_skip_word w _ [] hw.2]
      rw [pySplitAux_space _ _ (by simp [hw.1])]
      simp only [List.append_nil, List.reverse_reverse]
      exact congrArg (fun l => w :: l) (ih (fun u hu => hgood u (by simp [hu])))

/-- Tokens of the chunking loop: the finished chunks' tokens followed by the
open chunk's words and the words still to process. -/
theorem splitChunksAux_tokens (ml : Nat) :
    ∀ (ws chunks cc : List (List Char)) (cl : Nat),
      (∀ w ∈ cc, goodWord w) → (∀ w ∈ ws, goodWord w) →
      ((splitChunksAux ml ws chunks cc cl).map pySplit).flatten
        = (chunks.map pySplit).flatten ++ cc ++ ws := by
  intro ws
  induction ws with
  | nil =>
    intro chunks cc cl hcc _
    by_cases h : cc = []
    · subst h; simp [splitChunksAux]
    · simp only [splitChunksAux, List.isEmpty_eq_true, h, if_false]
      simp [pySplit_joinSpace cc hcc]
  | cons w ws ih =>
    intro chunks cc cl hcc hws
    have hw : goodWord w := hws w (by simp)
    by_cases hcond : cl + w.length + 1 ≤ ml
    · simp only [splitChunksAux, hcond, if_true]
      rw [ih chunks (cc ++ [w]) _ ?_ (fun u hu => hws u (by simp [hu]))]
      · simp
      · intro u hu
        rcases List.mem_append.mp hu with hu | hu
        · exact hcc u hu
        · simp at hu; subst hu; exact hw
    · simp only [splitChunksAux, hcond, if_false]
      rw [ih _ [w] _ (by simpa using hw) (fun u hu => hws u (by simp [hu]))]
      by_cases h : cc = []
      · subst h; simp
      · simp only [List.isEmpty_eq_true, h, if_false]
        simp [pySplit_joinSpace cc hcc]

theorem joinSpace_append :
    ∀ (xs ys : List (List Char)), xs ≠ [] → ys ≠ [] →
      joinSpace (xs ++ ys) = joinSpace xs ++ ' ' :: joinSpace ys := by
  intro xs
  induction xs with
  | nil => intro ys h _; exact absurd rfl h
  | cons x tail ih =>
    intro ys _ hys
    cases tail with
    | nil =>
      cases ys with
      | nil => exact absurd rfl hys
      | cons y ys' => simp [joinSpace]
    | cons x2 t2 =>
      have := ih ys (by simp) hys
      simp only [List.cons_append] at this ⊢
      rw [show joinSpace (x :: x2 :: (t2 ++ ys)) = x ++ ' ' :: joinSpace (x2 :: (t2 ++ ys)) from rfl]
      rw [this]
      simp [joinSpace]

theorem joinSpace_snoc (cc : List (List Char)) (w : List Char) (h : cc ≠ []) :
    joinSpace (cc ++ [w]) = joinSpace cc ++ ' ' :: w :=
  joinSpace_append cc [w] h (by simp)

theorem joinSpace_length_le (xs ys : List (List Char)) :
    (joinSpace xs).length ≤ (joinSpace (xs ++ ys)).length := by
  by_cases hx : xs = []
  · subst hx; simp [joinSpace]
  · by_cases hy : ys = []
    · subst hy; simp
    · rw [joinSpace_append xs ys hx hy]
      simp

/-- If all remaining words fit, the loop closes with a single new chunk
holding everything. -/
theorem splitChunksAux_single (ml : Nat) :
    ∀ (ws cc chunks : List (List Char)) (cl : Nat),
      cc ≠ [] → cl = (joinSpace cc).length + 1 →
      (joinSpace (cc ++ ws)).length + 1 ≤ ml →
      splitChunksAux ml ws chunks cc cl = chunks ++ [joinSpace (cc ++ ws)] := by
  intro ws
  induction ws with
  | nil =>
    intro cc chunks cl hcc _ _
    simp [splitChunksAux, hcc]
  | cons w ws ih =>
    intro cc chunks cl hcc hcl hle
    have hsnoc := joinSpace_snoc cc w hcc
    have hassoc : (cc ++ [w]) ++ ws = cc ++ w :: ws := by simp
    have hmono : (joinSpace (cc ++ [w])).length ≤ (joinSpace (cc ++ w :: ws)).length := by
      calc (joinSpace (cc ++ [w])).length
          ≤ (joinSpace ((cc ++ [w]) ++ ws)).length := joinSpace_length_le _ _
        _ = (joinSpace (cc ++ w :: ws)).length := by rw [hassoc]
    have hlen : (joinSpace (cc ++ [w])).length = (joinSpace cc).length + 1 + w.length := by
      rw [hsnoc]; simp only [List.length_append, List.length_cons]; omega
    have hcond : cl + w.length + 1 ≤ ml := by
      have : (joinSpace (cc ++ w :: ws)).length + 1 ≤ ml := hle
      omega
    simp only [splitChunksAux, hcond, if_true]
    rw [ih (cc ++ [w]) chunks _ (by simp) (by omega) (by rw [hassoc]; exact hle)]
    rw [hassoc]

/-- Loop invariant for the chunk-size bound: every produced chunk either fits
in `ml` serialized characters or is a single original word. -/
theorem splitChunksAux_bound (ml : Nat) (words0 : List (List Char)) :
    ∀ (ws chunks cc : List (List Char)) (cl : Nat),
      (∀ c ∈ chunks, c.length ≤ ml ∨ c ∈ words0) →
      (∀ w ∈ cc, w ∈ words0) →
      (∀ w ∈ ws, w ∈ words0) →
      (joinSpace cc).length ≤ cl →
      (2 ≤ cc.length → cl ≤ ml) →
      ∀ c ∈ splitChunksAux ml ws chunks cc cl, c.length ≤ ml ∨ c ∈ words0 := by
  have emit : ∀ (cc : List (List Char)) (cl : Nat), cc ≠ [] →
      (∀ w ∈ cc, w ∈ words0) → (joinSpace cc).length ≤ cl →
      (2 ≤ cc.length → cl ≤ ml) →
      (joinSpace cc).length ≤ ml ∨ joinSpace cc ∈ words0 := by
    intro cc cl hne hmem hlen h2
    match cc with
    | [w] => exact Or.inr (by simpa [joinSpace] using hmem w (by simp))
    | w1 :: w2 :: t =>
      have : cl ≤ ml := h2 (by simp)
      exact Or.inl (by omega)
  intro ws
  induction ws with
  | nil =>
    intro chunks cc cl hchunks hcc _ hlen h2 c hc
    by_cases h : cc = []
    · subst h
      simp only [splitChunksAux, List.isEmpty_nil, if_true] at hc
      exact hchunks c hc
    · simp only [splitChunksAux, List.isEmpty_eq_true, h, if_false] at hc
      rcases List.mem_append.mp hc with hc | hc
      · exact hchunks c hc
      · simp at hc; subst hc
        exact emit cc cl h hcc hlen h2
  | cons w ws ih =>
    intro chunks cc cl hchunks hcc hws hlen h2 c hc
    have hwmem : w ∈ words0 := hws w (by simp)
    by_cases hcond : cl + w.length + 1 ≤ ml
    · simp only [splitChunksAux, hcond, if_true] at hc
      refine ih chunks (cc ++ [w]) _ hchunks ?_ (fun u hu => hws u (by simp [hu])) ?_ ?_ c hc
      · intro u hu
        rcases List.mem_append.mp hu with hu | hu
        · exact hcc u hu
        · simp at hu; subst hu; exact hwmem
      · by_cases hccnil : cc = []
        · subst hccnil
          simp only [List.nil_append]
          show w.length ≤ cl + w.length + 1
          omega
        · rw [joinSpace_snoc cc w hccnil]
          simp only [List.length_append, List.length_cons]
          omega
      · intro _; omega
    · simp only [splitChunksAux, hcond, if_false] at hc
      refine ih _ [w] _ ?_ (by simpa using hwmem)
        (fun u hu => hws u (by simp [hu])) (by simp [joinSpace]) (by simp) c hc
      by_cases hccnil : cc = []
      · subst hccnil
        simpa using hchunks
      · simp only [List.isEmpty_eq_true, hccnil, if_false]
        intro d hd
        rcases List.mem_append.mp hd with hd | hd
        · exact hchunks d hd
        · simp at hd; subst hd
          exact emit cc cl hccnil hcc hlen h2

/-- C1: for every input text, concatenating the whitespace-delimited tokens of
all chunks returned by `_split_text_into_chunks`, in chunk order, reproduces
the source text's token sequence exactly — no token is dropped, duplicated or
reordered. -/
theorem chunking_preserves_token_sequence (text : List Char) (maxLength : Nat) :
    ((split_text_into_chunks text maxLength).map pySplit).flatten = pySplit text := by
  unfold split_text_into_chunks
  rw [splitChunksAux_tokens maxLength (pySplit text) [] [] 0 (by simp) (pySplit_good text)]
  simp

/-- C2 fails as stated: a two-token text whose serialized form has length
exactly `max_chunk_chars = 1024` is split into two chunks, not one (the loop
admits a word only while `current_length + len(word) + 1 <= 1024`), and a
whitespace-only text yields zero chunks, not one. -/
theorem chunking_le_1024_single_chunk_counterexample :
    ((joinSpace (pySplit (List.replicate 1022 'a' ++ ' ' :: ['b']))).length ≤ 1024 ∧
      split_text_into_chunks (List.replicate 1022 'a' ++ ' ' :: ['b']) 1024 ≠
        [joinSpace (pySplit (List.replicate 1022 'a' ++ ' ' :: ['b']))] ∧
      (split_text_into_chunks (List.replicate 1022 'a' ++ ' ' :: ['b']) 1024).length = 2) ∧
    ((joinSpace (pySplit [' '])).length ≤ 1024 ∧
      split_text_into_chunks [' '] 1024 ≠ [joinSpace (pySplit [' '])]) :=
  ⟨⟨by decide, by decide, by decide⟩, by decide, by decide⟩

/-- C2 (amended): for every text with at least one token whose serialized
token concatenation (tokens joined by single spaces) has length at most 1023
(strictly less than `max_chunk_chars = 1024`), the chunk split produces
exactly one chunk, and that chunk equals the serialized text. -/
theorem chunking_single_chunk_of_small (text : List Char)
    (hne : pySplit text ≠ [])
    (hlen : (joinSpace (pySplit text)).length ≤ 1023) :
    split_text_into_chunks text 1024 = [joinSpace (pySplit text)] := by
  obtain ⟨w, rest, hw⟩ : ∃ w rest, pySplit text = w :: rest := by
    cases h : pySplit text with
    | nil => exact absurd h hne
    | cons w rest => exact ⟨w, rest, rfl⟩
  unfold split_text_into_chunks
  rw [hw] at hlen ⊢
  have hw1 : w.length ≤ (joinSpace (w :: rest)).length := by
    have := joinSpace_length_le [w] rest
    simpa [joinSpace] using this
  have hcond : 0 + w.length + 1 ≤ 1024 := by omega
  have hcl : 0 + w.length + 1 = (joinSpace [w]).length + 1 := by simp [joinSpace]
  have harg : (joinSpace ([w] ++ rest)).length + 1 ≤ 1024 := by
    rw [show [w] ++ rest = w :: rest from rfl]; omega
  show splitChunksAux 1024 (w :: rest) [] [] 0 = [joinSpace (w :: rest)]
  simp only [splitChunksAux, hcond, if_true]
  rw [show ([] : List (List Char)) ++ [w] = [w] from rfl]
  rw [splitChunksAux_single 1024 rest [w] [] _ (by simp) hcl harg]
  rw [show [w] ++ rest = w :: rest from rfl]
  simp

theorem chunking_single_chunk_of_small_witness :
    pySplit "hello world".data ≠ [] ∧
    (joinSpace (pySplit "hello world".data)).length ≤ 1023 ∧
    split_text_into_chunks "hello world".data 1024 = [joinSpace (pySplit "hello world".data)] :=
  ⟨by decide, by decide, chunking_single_chunk_of_small _ (by decide) (by decide)⟩

/-- C3: every chunk produced by the chunk split at `max_chunk_chars = 1024`
has serialized length at most 1024, except a chunk consisting of a single
over-length token of the source text, which becomes its own chunk
untruncated (the chunk is that token itself). -/
theorem chunk_serialized_length_bound (text : List Char) :
    ∀ c ∈ split_text_into_chunks text 1024,
      c.length ≤ 1024 ∨ (1024 < c.length ∧ c ∈ pySplit text) := by
  intro c hc
  have h := splitChunksAux_bound 1024 (pySplit text) (pySplit text) [] [] 0
    (by simp) (by simp) (fun _ hw => hw) (by simp [joinSpace]) (by simp) c hc
  by_cases hle : c.length ≤ 1024
  · exact Or.inl hle
  · rcases h with h | h
    · exact Or.inl h
    · exact Or.inr ⟨by omega, h⟩

theorem chunk_serialized_length_bound_witness :
    "hi there".data ∈ split_text_into_chunks "hi there".data 1024 ∧
    ("hi there".data.length ≤ 1024 ∨
      (1024 < "hi there".data.length ∧ "hi there".data ∈ pySplit "hi there".data)) :=
  ⟨by decide, chunk_serialized_length_bound _ _ (by decide)⟩

theorem apply_style_paragraph (s : List Char) :
    apply_style_formatting s "paragraph" = s := rfl

theorem bulletLines_eq (l : List (List Char)) :
    bulletLines l = ((l.map pyStrip).filter (fun f => 10 < f.length)).map
      (fun f => '•' :: ' ' :: f) := by
  induction l with
  | nil => rfl
  | cons s rest ih =>
    by_cases h : 10 < (pyStrip s).length
    · have hne : pyStrip s ≠ [] := by
        intro hnil; rw [hnil] at h; simp at h
      simp only [bulletLines, List.map_cons, List.filter_cons]
      rw [if_pos ⟨hne, h⟩]
      simp [h, ih]
    · simp only [bulletLines, List.map_cons, List.filter_cons]
      rw [if_neg (fun hc => h hc.2)]
      simp [h, ih]

/-- C5: `bullet_points` formatting splits the summary on runs of `.`, `!`,
`?`, trims each fragment, keeps exactly the fragments longer than 10
characters, bullets them and joins with newlines; the worked example yields
two bullets (the fragment "Short" is dropped), and a summary with no fragment
longer than 10 characters yields an empty bullet list. -/
theorem bullet_points_formatting :
    (∀ summary : List Char,
      apply_style_formatting summary "bullet_points" =
        joinNewline ((((reSplitSentences summary).map pyStrip).filter
          (fun f => 10 < f.length)).map (fun f => '•' :: ' ' :: f))) ∧
    apply_style_formatting "Alpha beta gamma. Short. Another full sentence here.".data
        "bullet_points"
      = "• Alpha beta gamma\n• Another full sentence here".data ∧
    (∀ summary : List Char,
      (((reSplitSentences summary).map pyStrip).all (fun f => f.length ≤ 10)) →
        apply_style_formatting summary "bullet_points" = []) := by
  have hgen : ∀ summary : List Char,
      apply_style_formatting summary "bullet_points" =
        joinNewline ((((reSplitSentences summary).map pyStrip).filter
          (fun f => 10 < f.length)).map (fun f => '•' :: ' ' :: f)) := by
    intro summary
    show joinNewline (bulletLines (reSplitSentences summary)) = _
    rw [bulletLines_eq]
  refine ⟨hgen, by decide, ?_⟩
  intro summary hall
  rw [hgen]
  have hnil : ((reSplitSentences summary).map pyStrip).filter
      (fun f => 10 < f.length) = [] := by
    rw [List.filter_eq_nil_iff]
    intro a ha
    have := List.all_eq_true.mp hall a ha
    simp at this ⊢
    omega
  rw [hnil]
  rfl

theorem bullet_points_formatting_witness :
    (((reSplitSentences "Hi. No.".data).map pyStrip).all (fun f => f.length ≤ 10)) ∧
    apply_style_formatting "Hi. No.".data "bullet_points" = [] :=
  ⟨by decide, bullet_points_formatting.2.2 _ (by decide)⟩

/-- C4: when more than one chunk exists, the partial summaries are joined
with single spaces in chunk order, and the backend is re-invoked on the
joined text exactly when its word count exceeds `max_length`; with a single
chunk its partial summary is the result with no re-invocation. -/
theorem recombination_spec {E : Type} (backend : List Char → Except E (List Char))
    (maxLength : Nat) (text : List Char) (summaries : List (List Char))
    (hok : mapBackendChunks backend (split_text_into_chunks text 1024) =
      Except.ok summaries) :
    (1 < summaries.length →
      (¬ maxLength < (pySplit (joinSpace summaries)).length →
        summarize_with_huggingface backend maxLength "paragraph" text =
          Except.ok ⟨joinSpace summaries, (pySplit (joinSpace summaries)).length⟩) ∧
      (∀ f, maxLength < (pySplit (joinSpace summaries)).length →
        backend (joinSpace summaries) = Except.ok f →
        summarize_with_huggingface backend maxLength "paragraph" text =
          Except.ok ⟨f, (pySplit f).length⟩)) ∧
    (∀ s, summaries = [s] →
      summarize_with_huggingface backend maxLength "paragraph" text =
        Except.ok ⟨s, (pySplit s).length⟩) := by
  constructor
  · intro h1
    constructor
    · intro h2
      unfold summarize_with_huggingface
      rw [hok]
      simp only [if_pos h1, if_neg h2, apply_style_paragraph]
    · intro f h2 hb
      unfold summarize_with_huggingface
      rw [hok]
      simp only [if_pos h1, if_pos h2, hb, apply_style_paragraph]
  · intro s hs
    subst hs
    unfold summarize_with_huggingface
    rw [hok]
    simp only [List.length_singleton, lt_self_iff_false, if_false, apply_style_paragraph]

theorem recombination_spec_witness :
    (mapBackendChunks (fun s => (Except.ok s : Except Unit (List Char)))
        (split_text_into_chunks (List.replicate 1022 'a' ++ ' ' :: ['b']) 1024) =
      Except.ok [List.replicate 1022 'a', ['b']]) ∧
    summarize_with_huggingface (fun s => (Except.ok s : Except Unit (List Char)))
        150 "paragraph" (List.replicate 1022 'a' ++ ' ' :: ['b']) =
      Except.ok ⟨joinSpace [List.replicate 1022 'a', ['b']], 2⟩ := by
  refine ⟨by rfl, ?_⟩
  have h := (recombination_spec (fun s => (Except.ok s : Except Unit (List Char)))
    150 (List.replicate 1022 'a' ++ ' ' :: ['b'])
    [List.replicate 1022 'a', ['b']] (by rfl)).1 (by decide) |>.1 (by decide)
  rw [h]
  have hwc : (pySplit (joinSpace [List.replicate 1022 'a', ['b']])).length = 2 := by decide
  rw [hwc]

theorem mapBackendChunks_error_of_mem {E : Type}
    (backend : List Char → Except E (List Char)) :
    ∀ (l : List (List Char)) (c : List Char) (e0 : E), c ∈ l →
      backend c = Except.error e0 →
      ∃ e, mapBackendChunks backend l = Except.error e ∧
        ∃ c' ∈ l, backend c' = Except.error e := by
  intro l
  induction l with
  | nil => intro c e0 hc _; simp at hc
  | cons x xs ih =>
    intro c e0 hc herr
    cases hbx : backend x with
    | error e =>
      refine ⟨e, ?_, ⟨x, by simp, hbx⟩⟩
      simp [mapBackendChunks, hbx]
    | ok s =>
      rcases List.mem_cons.mp hc with rfl | hc
      · rw [hbx] at herr; cases herr
      · obtain ⟨e, hmap, c', hc', hb'⟩ := ih c e0 hc herr
        refine ⟨e, ?_, ⟨c', by simp [hc'], hb'⟩⟩
        simp [mapBackendChunks, hbx, hmap]

/-- C7: if the backend fails on any chunk, the summarize operation returns no
partial result — it surfaces a single error wrapping an underlying backend
cause, never a summary. -/
theorem backend_failure_propagates {E : Type} (backend : List Char → Except E (List Char))
    (maxLength : Nat) (style : String) (text : List Char) (c : List Char) (e0 : E)
    (hmem : c ∈ split_text_into_chunks text 1024)
    (herr : backend c = Except.error e0) :
    ∃ e, summarize_with_huggingface backend maxLength style text =
        Except.error (SummarizationError.backendFailure e) ∧
      ∃ c' ∈ split_text_into_chunks text 1024, backend c' = Except.error e := by
  obtain ⟨e, hmap, hwit⟩ := mapBackendChunks_error_of_mem backend _ c e0 hmem herr
  refine ⟨e, ?_, hwit⟩
  unfold summarize_with_huggingface
  rw [hmap]

theorem backend_failure_propagates_witness :
    "hello".data ∈ split_text_into_chunks "hello".data 1024 ∧
    (fun _ => (Except.error 7 : Except Nat (List Char))) "hello".data = Except.error 7 ∧
    ∃ e, summarize_with_huggingface (fun _ => (Except.error 7 : Except Nat (List Char)))
        150 "paragraph" "hello".data =
        Except.error (SummarizationError.backendFailure e) ∧
      ∃ c' ∈ split_text_into_chunks "hello".data 1024,
        (fun _ => (Except.error 7 : Except Nat (List Char))) c' = Except.error e :=
  ⟨by decide, rfl,
    backend_failure_propagates (fun _ => (Except.error 7 : Except Nat (List Char)))
      150 "paragraph" "hello".data "hello".data 7 (by decide) rfl⟩

theorem contentTypeBad_iff (o : Option String) :
    ((match o with
      | some ct => !(SUPPORTED_CONTENT_TYPES.contains ct)
      | none => false) = true) ↔
      ∃ ct, o = some ct ∧ ct ∉ SUPPORTED_CONTENT_TYPES := by
  cases o with
  | none => simp
  | some ct => simp [List.contains]

/-- C6: the audio validator returns false exactly when the filename is empty,
or its (lowercased) extension is unsupported, or a declared content type is
not in the supported mapping, or the byte length is 0 or exceeds 52428800;
the content-type check is skipped when none is declared.  The four concrete
cases of the claim are checked directly. -/
theorem audio_validation_spec :
    (∀ f : UploadFile,
      validate_audio_file f = false ↔
        (f.filename = [] ∨
         splitextExtension (f.filename.map Char.toLower) ∉ SUPPORTED_EXTENSIONS ∨
         (∃ ct, f.contentType = some ct ∧ ct ∉ SUPPORTED_CONTENT_TYPES) ∨
         f.byteLength = 0 ∨
         52428800 < f.byteLength)) ∧
    validate_audio_file ⟨"clip.mp3".data, none, 0⟩ = false ∧
    validate_audio_file ⟨"clip.txt".data, none, 1⟩ = false ∧
    validate_audio_file ⟨"clip.mp3".data, none, 52428801⟩ = false ∧
    validate_audio_file ⟨"clip.mp3".data, none, 1⟩ = true := by
  refine ⟨?_, by decide, by decide, by decide, by decide⟩
  intro f
  unfold validate_audio_file
  by_cases h1 : f.filename = []
  · rw [if_pos h1]
    simp [h1]
  · rw [if_neg h1]
    by_cases h2 : splitextExtension (f.filename.map Char.toLower) ∈ SUPPORTED_EXTENSIONS
    · rw [if_neg (not_not_intro h2)]
      by_cases h3 : ∃ ct, f.contentType = some ct ∧ ct ∉ SUPPORTED_CONTENT_TYPES
      · rw [if_pos ((contentTypeBad_iff f.contentType).mpr h3)]
        simp [h3]
      · rw [if_neg (fun hb => h3 ((contentTypeBad_iff f.contentType).mp hb))]
        by_cases h4 : 50 * 1024 * 1024 < f.byteLength
        · rw [if_pos h4]
          have h4' : 52428800 < f.byteLength := by omega
          simp [h4']
        · rw [if_neg h4]
          by_cases h5 : f.byteLength = 0
          · rw [if_pos h5]
            simp [h5]
          · rw [if_neg h5]
            refine iff_of_false (by simp) ?_
            intro hor
            rcases hor with hA | hB | hC | hD | hE
            · exact h1 hA
            · exact hB h2
            · exact h3 hC
            · exact h5 hD
            · omega
    · rw [if_pos h2]
      simp [h2]

theorem char_toNat_ofNat_valid (n : Nat) (h : n.isValidChar) :
    (Char.ofNat n).toNat = n := by
  unfold Char.ofNat
  rw [dif_pos h]
  rfl

theorem toLower_idem (c : Char) : c.toLower.toLower = c.toLower := by
  simp only [Char.toLower]
  by_cases h : c.toNat ≥ 65 ∧ c.toNat ≤ 90
  · rw [if_pos h]
    have hv : (c.toNat + 32).isValidChar := Or.inl (by omega)
    rw [char_toNat_ofNat_valid _ hv]
    rw [if_neg (by omega)]
  · rw [if_neg h]
    rw [if_neg h]

/-- C10 (implicit): the validator lowercases the filename before extracting
and comparing the extension, so validation is insensitive to the filename's
letter case; in particular `"CLIP.MP3"` is not rejected. -/
theorem extension_check_case_insensitive :
    (∀ (name : List Char) (ct : Option String) (n : Nat),
      validate_audio_file ⟨name.map Char.toLower, ct, n⟩ =
        validate_audio_file ⟨name, ct, n⟩) ∧
    validate_audio_file ⟨"CLIP.MP3".data, none, 1⟩ = true := by
  refine ⟨?_, by decide⟩
  intro name ct n
  have hmap : (name.map Char.toLower).map Char.toLower = name.map Char.toLower := by
    rw [List.map_map]
    exact List.map_congr_left (fun a _ => toLower_idem a)
  unfold validate_audio_file
  simp only [hmap, List.map_eq_nil_iff]

/-- C8: on an empty segment sequence the confidence estimation returns
exactly confidence 0.8 and duration 0. -/
theorem empty_segments_default :
    confidence_and_duration [] = (0.8, 0) := by
  norm_num [confidence_and_duration]

theorem pyMin_eq_min (a b : ℚ) : pyMin a b = min a b := by
  rw [pyMin, min_def]

theorem pyMax_eq_max (a b : ℚ) : pyMax a b = max a b := by
  rw [pyMax, max_def]

/-- C9: on a non-empty segment sequence the confidence is
`clamp((mean + 1) / 2, 0, 1)` where `mean` is the arithmetic mean of the
segments' average log-probabilities (hence the confidence lies in `[0, 1]`),
and the duration is the `end` of the last segment. -/
theorem confidence_formula (segments : List Segment) (h : segments ≠ []) :
    confidence_and_duration segments =
      (max 0 (min 1 (((segments.map (fun s => s.avgLogprob)).sum /
          (segments.length : ℚ) + 1) / 2)),
        (segments.getLast h).endTime) ∧
    0 ≤ (confidence_and_duration segments).1 ∧
    (confidence_and_duration segments).1 ≤ 1 := by
  have hb : segments.isEmpty = false := by
    cases segments with
    | nil => exact absurd rfl h
    | cons a l => rfl
  have hmapb : (segments.map (fun s => s.avgLogprob)).isEmpty = false := by
    cases segments with
    | nil => exact absurd rfl h
    | cons a l => rfl
  have hmain : confidence_and_duration segments =
      (max 0 (min 1 (((segments.map (fun s => s.avgLogprob)).sum /
          (segments.length : ℚ) + 1) / 2)),
        (segments.getLast h).endTime) := by
    unfold confidence_and_duration
    rw [List.getLast?_eq_getLast_of_ne_nil h]
    simp only [hb, hmapb, Bool.false_eq_true, not_false_iff, if_true, List.length_map]
    rw [pyMax_eq_max, pyMin_eq_min]
  refine ⟨hmain, ?_, ?_⟩
  · rw [hmain]
    exact le_max_left 0 _
  · rw [hmain]
    show max 0 (min 1 _) ≤ 1
    exact max_le (by norm_num) (min_le_left 1 _)

theorem confidence_formula_witness :
    ([(⟨-1, 5⟩ : Segment), ⟨0, 125/10⟩] ≠ []) ∧
    confidence_and_duration [(⟨-1, 5⟩ : Segment), ⟨0, 125/10⟩] = (1/4, 125/10) := by
  refine ⟨by simp, ?_⟩
  have h := (confidence_formula [(⟨-1, 5⟩ : Segment), ⟨0, 125/10⟩] (by simp)).1
  rw [h]
  norm_num [List.getLast, min_def, max_def]

end VoiceNotes
